import Mathlib

/-
Verification of the terminal environment utilities (findExecutable,
mergeEnvironments, createTerminalEnvironment, getCwd, locale helpers) of the
repository, via a shallow embedding of the TypeScript source into Lean.
Environments are modelled as ordered association lists, matching the
insertion-order semantics of JavaScript objects; JavaScript runtime values
are modelled by an explicit inductive covering undefined, null and strings;
asynchronous filesystem existence checks become an injected Bool predicate;
a throwing variable resolver becomes a function into Option. Platform facts
(path primitives, the current platform flags, the platform locale) become
explicit parameters. Character-level operations (toLowerCase, toUpperCase,
split, regex searches) are modelled on ASCII code points.
-/

set_option linter.unusedVariables false

namespace TerminalEnv

/-- JavaScript runtime values that can appear in an environment mapping:
missing or undefined, null (a deletion directive in overlays), or a string. -/
inductive JSVal where
  | undef : JSVal
  | null : JSVal
  | str : String → JSVal
deriving DecidableEq, Repr

/-- An environment object: ordered key-value pairs, as JavaScript objects
preserve insertion order. Objects produced by the JavaScript runtime never
hold two bindings of the same key. -/
abbrev Env := List (String × JSVal)

/-- ASCII model of the JavaScript toLowerCase on strings. -/
def jsToLowerCase (s : String) : String := String.mk (s.data.map Char.toLower)

/-- ASCII model of the JavaScript toUpperCase on strings. -/
def jsToUpperCase (s : String) : String := String.mk (s.data.map Char.toUpper)

/-- JavaScript truthiness of an environment value: only a nonempty string is
truthy; undefined, null and the empty string are falsy. -/
def truthy : JSVal → Bool
  | JSVal.str s => s ≠ ""
  | _ => false

/-- Reading a property of an object: the first binding of the key, or
undefined when the key is absent. -/
def getKey (env : Env) (k : String) : JSVal :=
  match env.find? (fun p => p.1 = k) with
  | some p => p.2
  | none => JSVal.undef

/-- Property assignment on an object: update the existing binding in place
(keeping its position), else append a new binding at the end. -/
def setKey (env : Env) (k : String) (v : JSVal) : Env :=
  if (env.find? (fun p => p.1 = k)).isSome then
    env.map (fun p => if p.1 = k then (k, v) else p)
  else env ++ [(k, v)]

/-- The JavaScript delete operator: remove the binding of the key. -/
def deleteKey (env : Env) (k : String) : Env :=
  env.filter (fun p => p.1 ≠ k)

/-- Source mergeNonNullKeys: copy only truthy values from the overlay into
the environment, in iteration order; a missing overlay is a no-op. -/
def mergeNonNullKeys (env : Env) (other : Option Env) : Env :=
  match other with
  | none => env
  | some o => o.foldl (fun e p => if truthy p.2 then setKey e p.1 p.2 else e) env

/-- Source _mergeEnvironmentValue: a string value is stored under the key,
any other value deletes the binding of the key. -/
def _mergeEnvironmentValue (env : Env) (key : String) (value : JSVal) : Env :=
  match value with
  | JSVal.str s => setKey env key (JSVal.str s)
  | _ => deleteKey env key

/-- The inner scan of mergeEnvironments on Windows: the first existing key of
the environment matching the overlay key case-insensitively, else the overlay
key itself. -/
def findCaseKey (parent : Env) (k : String) : String :=
  match parent.find? (fun p => jsToLowerCase p.1 = jsToLowerCase k) with
  | some p => p.1
  | none => k

/-- Source mergeEnvironments: apply the overlay to the parent environment.
On Windows each overlay key is first case-resolved against the current keys
of the parent; entries carrying undefined are skipped on both platforms. -/
def mergeEnvironments (isWin : Bool) (parent : Env) (other : Option Env) : Env :=
  match other with
  | none => parent
  | some o =>
    if isWin then
      o.foldl (fun e p =>
        let actualKey := findCaseKey e p.1
        if p.2 = JSVal.undef then e else _mergeEnvironmentValue e actualKey p.2) parent
    else
      o.foldl (fun e p =>
        if p.2 = JSVal.undef then e else _mergeEnvironmentValue e p.1 p.2) parent

/-- A variable resolver: none models a thrown exception. -/
abbrev Resolver := String → Option String

/-- Source resolveConfigurationVariables: resolve each string value in place;
non-string values and values whose resolution throws are left unchanged. -/
def resolveConfigurationVariables (variableResolver : Resolver) (env : Env) : Env :=
  env.map (fun p =>
    match p.2 with
    | JSVal.str s =>
      match variableResolver s with
      | some r => (p.1, JSVal.str r)
      | none => (p.1, JSVal.str s)
    | v => (p.1, v))

/-- The locale detection setting. -/
inductive DetectLocale where
  | auto : DetectLocale
  | off : DetectLocale
  | on : DetectLocale
deriving DecidableEq, Repr

/-- Bool test for an end-anchored literal regex search on a string. -/
def searchEndsWith (s pat : String) : Bool := pat.data.isSuffixOf s.data

/-- The literal part of the euc regex. -/
def eucPat : List Char := ['.', 'e', 'u', 'c']

/-- Bool test for the unanchored euc regex: some occurrence of the four
characters dot, e, u, c followed by at least one further character. The
regex dot is modelled as matching any character. -/
def hasEucPlus : List Char → Bool
  | [] => false
  | c :: rest => (eucPat.isPrefixOf (c :: rest) && decide (4 ≤ rest.length)) || hasEucPlus rest

/-- Source shouldSetLangEnvVariable. -/
def shouldSetLangEnvVariable (env : Env) (detectLocale : DetectLocale) : Bool :=
  if detectLocale = DetectLocale.on then true
  else if detectLocale = DetectLocale.auto then
    match getKey env "LANG" with
    | JSVal.str lang =>
      if lang = "" then true
      else (!(searchEndsWith lang ".UTF-8")) && (!(searchEndsWith lang ".utf8"))
        && (!(hasEucPlus lang.data))
    | _ => true
  else false

/-- Split a character list at every occurrence of the separator; adjacent
separators produce empty segments, as in JavaScript. -/
def splitOnChar (sep : Char) : List Char → List (List Char)
  | [] => [[]]
  | c :: rest =>
    let r := splitOnChar sep rest
    if c = sep then [] :: r
    else (c :: r.headD []) :: r.tail

/-- JavaScript split with a single-character separator. -/
def jsSplit (s : String) (sep : Char) : List String :=
  (splitOnChar sep s.data).map (fun l => String.mk l)

/-- The language-to-region fallback table of getLangEnvVariable. -/
def languageVariants : List (String × String) :=
  [("af", "ZA"), ("am", "ET"), ("be", "BY"), ("bg", "BG"), ("ca", "ES"),
   ("cs", "CZ"), ("da", "DK"), ("de", "DE"), ("el", "GR"), ("en", "US"),
   ("es", "ES"), ("et", "EE"), ("eu", "ES"), ("fi", "FI"), ("fr", "FR"),
   ("he", "IL"), ("hr", "HR"), ("hu", "HU"), ("hy", "AM"), ("is", "IS"),
   ("it", "IT"), ("ja", "JP"), ("kk", "KZ"), ("ko", "KR"), ("lt", "LT"),
   ("nl", "NL"), ("no", "NO"), ("pl", "PL"), ("pt", "BR"), ("ro", "RO"),
   ("ru", "RU"), ("sk", "SK"), ("sl", "SI"), ("sr", "YU"), ("sv", "SE"),
   ("tr", "TR"), ("uk", "UA"), ("zh", "CN")]

/-- JavaScript Array.join with an underscore separator. -/
def joinUnderscore : List String → String
  | [] => ""
  | [s] => s
  | s :: rest => s ++ "_" ++ joinUnderscore rest

/-- Source getLangEnvVariable. -/
def getLangEnvVariable (locale : Option String) : String :=
  let parts : List String :=
    match locale with
    | some l => if l = "" then [] else jsSplit l '-'
    | none => []
  match parts with
  | [] => "en_US.UTF-8"
  | [p0] =>
    let parts1 : List String :=
      match languageVariants.find? (fun q => q.1 = p0) with
      | some q => [p0, q.2]
      | none => [p0]
    joinUnderscore parts1 ++ ".UTF-8"
  | p0 :: p1 :: rest => joinUnderscore (p0 :: jsToUpperCase p1 :: rest) ++ ".UTF-8"

/-- Modelled from the spec: sanitizeProcessEnvironment lives in a base module
not present under src; per the spec it removes a fixed set of undesirable
inherited keys from the environment by name, the IPC hook variable being the
representative stripped key. -/
def sanitizeProcessEnvironment (env : Env) (names : List String) : Env :=
  names.foldl (fun e n => deleteKey e n) env

/-- Source addTerminalEnvironmentKeys: stamp TERM_PROGRAM, optionally the
version, optionally LANG, and COLORTERM. -/
def addTerminalEnvironmentKeys (env : Env) (version : Option String)
    (locale : Option String) (detectLocale : DetectLocale) : Env :=
  let env1 := setKey env "TERM_PROGRAM" (JSVal.str "vscode")
  let env2 :=
    match version with
    | some v => if v = "" then env1 else setKey env1 "TERM_PROGRAM_VERSION" (JSVal.str v)
    | none => env1
  let env3 :=
    if shouldSetLangEnvVariable env2 detectLocale then
      setKey env2 "LANG" (JSVal.str (getLangEnvVariable locale))
    else env2
  setKey env3 "COLORTERM" (JSVal.str "truecolor")

/-- The explicit cwd of a launch config: a plain string or a Uri, of which
only the filesystem path matters here. -/
inductive CwdSpec where
  | str : String → CwdSpec
  | uri : String → CwdSpec
deriving DecidableEq, Repr

/-- The fields of IShellLaunchConfig consumed by this module. -/
structure ShellLaunchConfig where
  cwd : Option CwdSpec := none
  ignoreConfigurationCwd : Bool := false
  env : Option Env := none
  strictEnv : Bool := false
deriving Repr

/-- The outcome of createTerminalEnvironment: the produced environment plus
the post-call states of the two caller-supplied overlay objects, making the
in-place mutation of the launch config env observable in the embedding. -/
structure CreateResult where
  env : Env
  envFromConfigAfter : Option Env
  shellEnvAfter : Option Env
deriving DecidableEq, Repr

/-- Source createTerminalEnvironment. The platform flag and the platform
locale are globals in the source and explicit parameters here. The spread of
envFromConfig into allowedEnvFromConfig is a shallow copy, so the resolver
acts on the copy; the launch config env is resolved in place. -/
def createTerminalEnvironment (isWin : Bool) (platformLocale : Option String)
    (shellLaunchConfig : ShellLaunchConfig) (envFromConfig : Option Env)
    (variableResolver : Option Resolver) (version : Option String)
    (detectLocale : DetectLocale) (baseEnv : Env) : CreateResult :=
  if shellLaunchConfig.strictEnv then
    { env := mergeNonNullKeys [] shellLaunchConfig.env
      envFromConfigAfter := envFromConfig
      shellEnvAfter := shellLaunchConfig.env }
  else
    let env0 := mergeNonNullKeys [] baseEnv
    let allowedEnvFromConfig : Env := envFromConfig.getD []
    let allowed1 : Env :=
      match variableResolver with
      | some r => resolveConfigurationVariables r allowedEnvFromConfig
      | none => allowedEnvFromConfig
    let shellEnvAfter : Option Env :=
      match variableResolver with
      | some r => shellLaunchConfig.env.map (fun e => resolveConfigurationVariables r e)
      | none => shellLaunchConfig.env
    let env1 := sanitizeProcessEnvironment env0 ["VSCODE_IPC_HOOK_CLI"]
    let env2 := mergeEnvironments isWin env1 (some allowed1)
    let env3 := mergeEnvironments isWin env2 shellEnvAfter
    let env4 := addTerminalEnvironmentKeys env3 version platformLocale detectLocale
    { env := env4
      envFromConfigAfter := envFromConfig
      shellEnvAfter := shellEnvAfter }

/-- The path primitives consumed from the platform path module, which is not
part of the embedded source: they are abstract parameters. The delimiter is
the single separator character of PATH-like variables. -/
structure PathOps where
  isAbsolute : String → Bool
  dirname : String → String
  join2 : String → String → String
  join3 : String → String → String → String
  delimiter : Char

/-- Modelled from the spec: getCaseInsensitive lives in a base module not
present under src; per the spec the PATH entry of the environment is looked
up case-insensitively. -/
def getCaseInsensitive (env : Env) (key : String) : JSVal :=
  match env.find? (fun p => jsToLowerCase p.1 = jsToLowerCase key) with
  | some p => p.2
  | none => JSVal.undef

/-- The search list derivation of findExecutable: explicit paths if given,
else the split of the PATH variable when it is a string, else nothing. -/
def derivePaths (P : PathOps) (paths : Option (List String)) (env : Env) :
    Option (List String) :=
  match paths with
  | some ps => some ps
  | none =>
    match getCaseInsensitive env "PATH" with
    | JSVal.str s => some (jsSplit s P.delimiter)
    | _ => none

/-- The search loop of findExecutable over the path entries, ending with the
final fallback probe of cwd joined with the command. -/
def searchPaths (P : PathOps) (isWin : Bool) (cwd command : String)
    (fsExists : String → Bool) : List String → Option String
  | [] =>
    let fullPath := P.join2 cwd command
    if fsExists fullPath then some fullPath else none
  | pathEntry :: rest =>
    let fullPath :=
      if P.isAbsolute pathEntry then P.join2 pathEntry command
      else P.join3 cwd pathEntry command
    if fsExists fullPath then some fullPath
    else if isWin then
      if fsExists (fullPath ++ ".com") then some (fullPath ++ ".com")
      else if fsExists (fullPath ++ ".exe") then some (fullPath ++ ".exe")
      else searchPaths P isWin cwd command fsExists rest
    else searchPaths P isWin cwd command fsExists rest

/-- Source findExecutable. The process current directory default and the
existence predicate are explicit parameters. -/
def findExecutable (P : PathOps) (isWin : Bool) (processCwd : String)
    (command : String) (cwd : Option String) (paths : Option (List String))
    (env : Env) (fsExists : String → Bool) : Option String :=
  if P.isAbsolute command then
    if fsExists command then some command else none
  else
    let cwd1 := cwd.getD processCwd
    if P.dirname command ≠ "." then
      let fullPath := P.join2 cwd1 command
      if fsExists fullPath then some fullPath else none
    else
      match derivePaths P paths env with
      | none =>
        let fullPath := P.join2 cwd1 command
        if fsExists fullPath then some fullPath else none
      | some ps => searchPaths P isWin cwd1 command fsExists ps

/-- The probe candidates contributed by the search list, in documented order:
each entry joined with the command, on Windows followed by the com and exe
suffixed forms of that candidate. -/
def searchCandidates (P : PathOps) (isWin : Bool) (cwd command : String) :
    List String → List String
  | [] => []
  | pathEntry :: rest =>
    let fullPath :=
      if P.isAbsolute pathEntry then P.join2 pathEntry command
      else P.join3 cwd pathEntry command
    (fullPath :: (if isWin then [fullPath ++ ".com", fullPath ++ ".exe"] else []))
      ++ searchCandidates P isWin cwd command rest

/-- Spec-side definition: the full documented probe order of findExecutable.
An absolute command is its own only candidate; a command with a directory
component has the single candidate cwd joined with the command; otherwise
the derived search list contributes its candidates followed by the final
fallback probe of cwd joined with the command. -/
def probeOrder (P : PathOps) (isWin : Bool) (processCwd : String)
    (command : String) (cwd : Option String) (paths : Option (List String))
    (env : Env) : List String :=
  if P.isAbsolute command then [command]
  else
    let cwd1 := cwd.getD processCwd
    if P.dirname command ≠ "." then [P.join2 cwd1 command]
    else
      match derivePaths P paths env with
      | none => [P.join2 cwd1 command]
      | some ps => searchCandidates P isWin cwd1 command ps ++ [P.join2 cwd1 command]

/-- Source _resolveCwd: apply the resolver when present; none models the
caught exception of a throwing resolver. -/
def _resolveCwd (cwd : String) (variableResolver : Option Resolver) : Option String :=
  match variableResolver with
  | some r => r cwd
  | none => some cwd

/-- Source _sanitizeCwd: on Windows, for a nonempty string whose second
character is a colon, uppercase the first character. -/
def _sanitizeCwd (isWin : Bool) (cwd : String) : String :=
  if isWin ∧ cwd ≠ "" ∧ cwd.data[1]? = some ':' then
    match cwd.data with
    | c :: rest => String.mk (c.toUpper :: rest)
    | [] => cwd
  else cwd

/-- Source getCwd. The platform flag and path primitives are parameters; the
log service carries no observable value and is dropped. JavaScript
truthiness makes an empty explicit cwd string, an empty configured cwd, an
empty resolved value and an empty joined path all fall through. -/
def getCwd (P : PathOps) (isWin : Bool) (shell : ShellLaunchConfig)
    (userHome : Option String) (variableResolver : Option Resolver)
    (root : Option String) (customCwd : Option String) : String :=
  let explicitCwd : Option String :=
    match shell.cwd with
    | some (CwdSpec.uri f) => some f
    | some (CwdSpec.str s) => if s = "" then none else some s
    | none => none
  match explicitCwd with
  | some unresolved =>
    let resolved := _resolveCwd unresolved variableResolver
    _sanitizeCwd isWin
      (match resolved with
       | some r => if r = "" then unresolved else r
       | none => unresolved)
  | none =>
    let cwdOpt : Option String :=
      match customCwd with
      | some c0 =>
        if shell.ignoreConfigurationCwd = false ∧ c0 ≠ "" then
          let c1 : Option String :=
            match variableResolver with
            | some r => _resolveCwd c0 (some r)
            | none => some c0
          match c1 with
          | some c2 =>
            if c2 = "" then none
            else if P.isAbsolute c2 then some c2
            else
              match root with
              | some rt => some (P.join2 rt c2)
              | none => none
          | none => none
        else none
      | none => none
    let fallback : String :=
      match root with
      | some rt => rt
      | none => userHome.getD ""
    let cwdFinal : String :=
      match cwdOpt with
      | some c => if c = "" then fallback else c
      | none => fallback
    _sanitizeCwd isWin cwdFinal

/-- Spec-side definition, from the claim wording: the configured cwd applies
when the launch config does not opt out, a configured cwd is supplied, and
its resolution through the resolver neither throws nor vanishes; an absolute
resolved value is used directly, a relative one is joined to the workspace
root when a root is known. -/
def getCwdConfiguredSpec (P : PathOps) (variableResolver : Option Resolver)
    (ignoreConfigurationCwd : Bool) (root : Option String)
    (customCwd : Option String) : Option String :=
  if ignoreConfigurationCwd then none
  else
    match customCwd with
    | none => none
    | some c0 =>
      if c0 = "" then none
      else
        match _resolveCwd c0 variableResolver with
        | none => none
        | some c =>
          if c = "" then none
          else if P.isAbsolute c then some c
          else
            match root with
            | some rt => some (P.join2 rt c)
            | none => none

/-- Spec-side definition, from the claim wording: the fallback is the
workspace root path, else the user home path, else the empty string. -/
def getCwdFallbackSpec (userHome : Option String) (root : Option String) : String :=
  match root with
  | some rt => rt
  | none =>
    match userHome with
    | some h => h
    | none => ""

/-- Spec-side definition, from the claim wording: with no explicit cwd, use
the configured cwd when it applies, else the fallback, and sanitize. -/
def getCwdNoExplicitSpec (P : PathOps) (isWin : Bool)
    (ignoreConfigurationCwd : Bool) (userHome : Option String)
    (variableResolver : Option Resolver) (root : Option String)
    (customCwd : Option String) : String :=
  _sanitizeCwd isWin
    (match getCwdConfiguredSpec P variableResolver ignoreConfigurationCwd root customCwd with
     | some c => c
     | none => getCwdFallbackSpec userHome root)

/-- Bool predicate: every value stored in the environment is a string. -/
def allStr (env : Env) : Bool :=
  env.all (fun p => match p.2 with | JSVal.str _ => true | _ => false)

/-- A concrete PathOps instance used to instantiate universally quantified
statements: absolute means starting with a slash, joins insert slashes. -/
def toyPathOps : PathOps :=
  { isAbsolute := fun s => s.data.headD 'x' = '/'
    dirname := fun s => if s.data.contains '/' then "d" else "."
    join2 := fun a b => a ++ "/" ++ b
    join3 := fun a b c => a ++ "/" ++ b ++ "/" ++ c
    delimiter := ':' }

end TerminalEnv

namespace TerminalEnv

theorem find?_mapSet_ne (env : Env) (k k' : String) (v : JSVal) (h : k' ≠ k) :
    (env.map (fun p => if p.1 = k then (k, v) else p)).find? (fun p => p.1 = k')
      = env.find? (fun p => p.1 = k') := by
  induction env with
  | nil => rfl
  | cons hd tl ih =>
    by_cases hk : hd.1 = k
    · simp only [List.map_cons, if_pos hk]
      rw [List.find?_cons_of_neg _ (by simp [Ne.symm h]),
        List.find?_cons_of_neg _ (by simp [hk, Ne.symm h]), ih]
    · simp only [List.map_cons, if_neg hk]
      by_cases hk' : hd.1 = k'
      · rw [List.find?_cons_of_pos _ (by simp [hk']), List.find?_cons_of_pos _ (by simp [hk'])]
      · rw [List.find?_cons_of_neg _ (by simp [hk']), List.find?_cons_of_neg _ (by simp [hk']), ih]

theorem find?_setKey_ne (env : Env) (k k' : String) (v : JSVal) (h : k' ≠ k) :
    (setKey env k v).find? (fun p => p.1 = k') = env.find? (fun p => p.1 = k') := by
  unfold setKey
  by_cases hf : (env.find? (fun p => p.1 = k)).isSome
  · rw [if_pos hf, find?_mapSet_ne env k k' v h]
  · rw [if_neg hf, List.find?_append]
    have : ([(k, v)].find? (fun p => p.1 = k')) = none := by simp [Ne.symm h]
    rw [this]
    cases env.find? (fun p => p.1 = k') <;> rfl

theorem getKey_setKey_ne (env : Env) (k k' : String) (v : JSVal) (h : k' ≠ k) :
    getKey (setKey env k v) k' = getKey env k' := by
  unfold getKey
  rw [find?_setKey_ne env k k' v h]

theorem find?_deleteKey_ne (env : Env) (k k' : String) (h : k' ≠ k) :
    (deleteKey env k).find? (fun p => p.1 = k') = env.find? (fun p => p.1 = k') := by
  unfold deleteKey
  induction env with
  | nil => rfl
  | cons hd tl ih =>
    by_cases hk : hd.1 = k
    · rw [List.filter_cons, if_neg (by simp [hk]), List.find?_cons_of_neg _ (by simp [hk, Ne.symm h]), ih]
    · rw [List.filter_cons, if_pos (by simp [hk])]
      by_cases hk' : hd.1 = k'
      · rw [List.find?_cons_of_pos _ (by simp [hk']), List.find?_cons_of_pos _ (by simp [hk'])]
      · rw [List.find?_cons_of_neg _ (by simp [hk']), List.find?_cons_of_neg _ (by simp [hk']), ih]

theorem getKey_deleteKey_ne (env : Env) (k k' : String) (h : k' ≠ k) :
    getKey (deleteKey env k) k' = getKey env k' := by
  unfold getKey
  rw [find?_deleteKey_ne env k k' h]

theorem getKey_mergeEnvironmentValue_ne (env : Env) (key k' : String) (v : JSVal)
    (h : k' ≠ key) : getKey (_mergeEnvironmentValue env key v) k' = getKey env k' := by
  unfold _mergeEnvironmentValue
  cases v with
  | str s => exact getKey_setKey_ne env key k' (JSVal.str s) h
  | null => exact getKey_deleteKey_ne env key k' h
  | undef => exact getKey_deleteKey_ne env key k' h

theorem findCaseKey_lower (parent : Env) (k : String) :
    jsToLowerCase (findCaseKey parent k) = jsToLowerCase k := by
  unfold findCaseKey
  cases hf : parent.find? (fun p => jsToLowerCase p.1 = jsToLowerCase k) with
  | none => rfl
  | some p => simpa using List.find?_some hf

theorem setKey_of_not_found (env : Env) (k : String) (v : JSVal)
    (h : env.find? (fun p => p.1 = k) = none) : setKey env k v = env ++ [(k, v)] := by
  unfold setKey
  rw [if_neg (by simp [h])]

theorem mergeEnvironments_nil (isWin : Bool) (parent : Env) :
    mergeEnvironments isWin parent (some []) = parent := by
  cases isWin <;> rfl

theorem mergeEnvironments_cons (isWin : Bool) (parent : Env) (p : String × JSVal) (o : Env) :
    mergeEnvironments isWin parent (some (p :: o))
      = mergeEnvironments isWin
          (if p.2 = JSVal.undef then parent
           else _mergeEnvironmentValue parent (if isWin then findCaseKey parent p.1 else p.1) p.2)
          (some o) := by
  cases isWin <;> by_cases h : p.2 = JSVal.undef <;> simp [mergeEnvironments, h]

end TerminalEnv

namespace TerminalEnv

theorem truthy_str (v : JSVal) (h : truthy v = true) : ∃ s, v = JSVal.str s ∧ s ≠ "" := by
  cases v with
  | str s => exact ⟨s, rfl, by simpa [truthy] using h⟩
  | null => simp [truthy] at h
  | undef => simp [truthy] at h

theorem allStr_iff (env : Env) : allStr env = true ↔ ∀ p ∈ env, ∃ s, p.2 = JSVal.str s := by
  simp only [allStr, List.all_eq_true]
  constructor
  · intro h p hp
    have hh := h p hp
    cases hv : p.2 with
    | str s => exact ⟨s, rfl⟩
    | null => rw [hv] at hh; simp at hh
    | undef => rw [hv] at hh; simp at hh
  · intro h p hp
    obtain ⟨s, hs⟩ := h p hp
    rw [hs]

theorem allStr_setKey (env : Env) (k : String) (s : String) (h : allStr env = true) :
    allStr (setKey env k (JSVal.str s)) = true := by
  rw [allStr_iff] at h ⊢
  intro p hp
  unfold setKey at hp
  by_cases hf : (env.find? (fun q => q.1 = k)).isSome
  · rw [if_pos hf] at hp
    obtain ⟨q, hq, hpq⟩ := List.mem_map.mp hp
    by_cases hqk : q.1 = k
    · rw [if_pos hqk] at hpq
      exact ⟨s, by rw [← hpq]⟩
    · rw [if_neg hqk] at hpq
      exact hpq ▸ h q hq
  · rw [if_neg hf] at hp
    rcases List.mem_append.mp hp with h1 | h2
    · exact h p h1
    · simp at h2
      exact ⟨s, by rw [h2]⟩

theorem allStr_deleteKey (env : Env) (k : String) (h : allStr env = true) :
    allStr (deleteKey env k) = true := by
  rw [allStr_iff] at h ⊢
  intro p hp
  exact h p (List.mem_of_mem_filter hp)

theorem allStr_mergeEnvironmentValue (env : Env) (key : String) (v : JSVal)
    (h : allStr env = true) : allStr (_mergeEnvironmentValue env key v) = true := by
  unfold _mergeEnvironmentValue
  cases v with
  | str s => exact allStr_setKey env key s h
  | null => exact allStr_deleteKey env key h
  | undef => exact allStr_deleteKey env key h

theorem allStr_mergeNonNullKeys (o : Env) : ∀ env : Env, allStr env = true →
    allStr (o.foldl (fun e p => if truthy p.2 then setKey e p.1 p.2 else e) env) = true := by
  induction o with
  | nil => intro env h; exact h
  | cons p o ih =>
    intro env h
    rw [List.foldl_cons]
    apply ih
    by_cases ht : truthy p.2 = true
    · rw [if_pos ht]
      obtain ⟨s, hs, _⟩ := truthy_str p.2 ht
      rw [hs]
      exact allStr_setKey env p.1 s h
    · rw [if_neg ht]
      exact h

theorem allStr_mergeNonNull (env : Env) (other : Option Env) (h : allStr env = true) :
    allStr (mergeNonNullKeys env other) = true := by
  cases other with
  | none => exact h
  | some o => exact allStr_mergeNonNullKeys o env h

theorem allStr_mergeEnvironments (isWin : Bool) (o : Env) : ∀ parent : Env,
    allStr parent = true → allStr (mergeEnvironments isWin parent (some o)) = true := by
  induction o with
  | nil => intro parent h; rw [mergeEnvironments_nil]; exact h
  | cons p o ih =>
    intro parent h
    rw [mergeEnvironments_cons]
    apply ih
    by_cases hu : p.2 = JSVal.undef
    · rw [if_pos hu]; exact h
    · rw [if_neg hu]
      exact allStr_mergeEnvironmentValue parent _ p.2 h

theorem allStr_mergeEnvironmentsOpt (isWin : Bool) (parent : Env) (other : Option Env)
    (h : allStr parent = true) : allStr (mergeEnvironments isWin parent other) = true := by
  cases other with
  | none => exact h
  | some o => exact allStr_mergeEnvironments isWin o parent h

theorem allStr_sanitize (names : List String) : ∀ env : Env, allStr env = true →
    allStr (sanitizeProcessEnvironment env names) = true := by
  induction names with
  | nil => intro env h; exact h
  | cons n names ih =>
    intro env h
    unfold sanitizeProcessEnvironment at ih ⊢
    rw [List.foldl_cons]
    exact ih (deleteKey env n) (allStr_deleteKey env n h)

theorem allStr_addTerminalEnvironmentKeys (env : Env) (version : Option String)
    (locale : Option String) (dl : DetectLocale) (h : allStr env = true) :
    allStr (addTerminalEnvironmentKeys env version locale dl) = true := by
  unfold addTerminalEnvironmentKeys
  dsimp only
  apply allStr_setKey
  have h2 : allStr (match version with
      | some v => if v = "" then setKey env "TERM_PROGRAM" (JSVal.str "vscode")
                  else setKey (setKey env "TERM_PROGRAM" (JSVal.str "vscode"))
                    "TERM_PROGRAM_VERSION" (JSVal.str v)
      | none => setKey env "TERM_PROGRAM" (JSVal.str "vscode")) = true := by
    cases version with
    | none => exact allStr_setKey _ _ _ h
    | some v =>
      dsimp only
      by_cases hv : v = ""
      · rw [if_pos hv]
        exact allStr_setKey _ _ _ h
      · rw [if_neg hv]
        exact allStr_setKey _ _ _ (allStr_setKey _ _ _ h)
  split
  · exact allStr_setKey _ _ _ h2
  · exact h2

end TerminalEnv

namespace TerminalEnv

/-- Claim C9: every environment returned by createTerminalEnvironment, in
strict or non-strict mode, contains only string values: null or undefined is
never stored in the result, since null entries act only as deletion
directives during merging and falsy values are skipped when copying from the
base environment or the strict overlay. -/
theorem createTerminalEnvironment_values_are_strings (isWin : Bool)
    (platformLocale : Option String) (slc : ShellLaunchConfig)
    (envFromConfig : Option Env) (variableResolver : Option Resolver)
    (version : Option String) (dl : DetectLocale) (baseEnv : Env) :
    allStr (createTerminalEnvironment isWin platformLocale slc envFromConfig
      variableResolver version dl baseEnv).env = true := by
  unfold createTerminalEnvironment
  by_cases hs : slc.strictEnv = true
  · rw [if_pos hs]
    exact allStr_mergeNonNull [] slc.env rfl
  · rw [if_neg hs]
    dsimp only
    apply allStr_addTerminalEnvironmentKeys
    apply allStr_mergeEnvironmentsOpt
    apply allStr_mergeEnvironmentsOpt
    apply allStr_sanitize
    exact allStr_mergeNonNull [] (some baseEnv) rfl

theorem mergeEnvironments_cons_win (parent : Env) (p : String × JSVal) (o : Env) :
    mergeEnvironments true parent (some (p :: o))
      = mergeEnvironments true
          (if p.2 = JSVal.undef then parent
           else _mergeEnvironmentValue parent (findCaseKey parent p.1) p.2) (some o) := by
  by_cases h : p.2 = JSVal.undef <;> simp [mergeEnvironments, h]

theorem mergeEnvironments_cons_nonwin (parent : Env) (p : String × JSVal) (o : Env) :
    mergeEnvironments false parent (some (p :: o))
      = mergeEnvironments false
          (if p.2 = JSVal.undef then parent
           else _mergeEnvironmentValue parent p.1 p.2) (some o) := by
  by_cases h : p.2 = JSVal.undef <;> simp [mergeEnvironments, h]

/-- Claim C2: on Windows, mergeEnvironments applies each overlay key
case-insensitively, retaining the casing of an existing matching base key and
falling back to the overlay casing for fresh keys; null deletes the
case-resolved entry, a string sets it; on other platforms the overlay key is
used directly; merging PATH x into an environment holding Path old yields
Path x, and a null overlay value removes the entry. -/
theorem mergeEnvironments_case_insensitive :
    (∀ (parent : Env) (k s : String),
      (∃ k0 v0, (k0, v0) ∈ parent ∧ jsToLowerCase k0 = jsToLowerCase k ∧
        mergeEnvironments true parent (some [(k, JSVal.str s)])
          = setKey parent k0 (JSVal.str s)) ∨
      ((∀ p ∈ parent, jsToLowerCase p.1 ≠ jsToLowerCase k) ∧
        mergeEnvironments true parent (some [(k, JSVal.str s)])
          = parent ++ [(k, JSVal.str s)])) ∧
    (∀ (parent : Env) (k : String),
      mergeEnvironments true parent (some [(k, JSVal.null)])
        = deleteKey parent (findCaseKey parent k)) ∧
    (∀ (parent : Env) (k s : String),
      mergeEnvironments false parent (some [(k, JSVal.str s)])
        = setKey parent k (JSVal.str s)) ∧
    (∀ (parent : Env) (k : String),
      mergeEnvironments false parent (some [(k, JSVal.null)]) = deleteKey parent k) ∧
    mergeEnvironments true [("Path", JSVal.str "old")] (some [("PATH", JSVal.str "x")])
      = [("Path", JSVal.str "x")] ∧
    mergeEnvironments true [("Path", JSVal.str "old")] (some [("PATH", JSVal.null)]) = [] := by
  refine ⟨?_, ?_, ?_, ?_, by decide, by decide⟩
  · intro parent k s
    rw [mergeEnvironments_cons_win, if_neg (by simp), mergeEnvironments_nil]
    dsimp only [_mergeEnvironmentValue]
    cases hf : parent.find? (fun p => jsToLowerCase p.1 = jsToLowerCase k) with
    | some p0 =>
      refine Or.inl ⟨p0.1, p0.2, List.mem_of_find?_eq_some hf,
        by simpa using List.find?_some hf, ?_⟩
      simp only [findCaseKey, hf]
    | none =>
      have hno : ∀ p ∈ parent, jsToLowerCase p.1 ≠ jsToLowerCase k := by
        intro p hp
        simpa using List.find?_eq_none.mp hf p hp
      refine Or.inr ⟨hno, ?_⟩
      simp only [findCaseKey, hf]
      apply setKey_of_not_found
      rw [List.find?_eq_none]
      intro p hp
      simp only [decide_eq_true_eq]
      intro hpk
      exact hno p hp (by rw [hpk])
  · intro parent k
    rw [mergeEnvironments_cons_win, if_neg (by simp), mergeEnvironments_nil]
    rfl
  · intro parent k s
    rw [mergeEnvironments_cons_nonwin, if_neg (by simp), mergeEnvironments_nil]
    rfl
  · intro parent k
    rw [mergeEnvironments_cons_nonwin, if_neg (by simp), mergeEnvironments_nil]
    rfl

/-- Claim C10: an overlay entry carrying undefined is skipped entirely by
mergeEnvironments, neither overwriting nor deleting, and base keys matching
no overlay key, even case-insensitively, keep their value across the merge. -/
theorem mergeEnvironments_undef_and_frame :
    (∀ (isWin : Bool) (parent o : Env),
      mergeEnvironments isWin parent (some o)
        = mergeEnvironments isWin parent (some (o.filter (fun p => p.2 ≠ JSVal.undef)))) ∧
    (∀ (isWin : Bool) (parent : Env) (k : String),
      mergeEnvironments isWin parent (some [(k, JSVal.undef)]) = parent) ∧
    (∀ (isWin : Bool) (parent o : Env) (k : String),
      (∀ p ∈ o, jsToLowerCase p.1 ≠ jsToLowerCase k) →
      getKey (mergeEnvironments isWin parent (some o)) k = getKey parent k) := by
  refine ⟨?_, ?_, ?_⟩
  · intro isWin parent o
    cases isWin with
    | true =>
      induction o generalizing parent with
      | nil => rfl
      | cons p o ih =>
        by_cases hu : p.2 = JSVal.undef
        · have hfil : List.filter (fun q => q.2 ≠ JSVal.undef) (p :: o)
              = List.filter (fun q => q.2 ≠ JSVal.undef) o := by
            simp [List.filter_cons, hu]
          rw [mergeEnvironments_cons_win, if_pos hu, hfil]
          exact ih parent
        · have hfil : List.filter (fun q => q.2 ≠ JSVal.undef) (p :: o)
              = p :: List.filter (fun q => q.2 ≠ JSVal.undef) o := by
            simp [List.filter_cons, hu]
          rw [hfil, mergeEnvironments_cons_win, mergeEnvironments_cons_win, if_neg hu]
          exact ih _
    | false =>
      induction o generalizing parent with
      | nil => rfl
      | cons p o ih =>
        by_cases hu : p.2 = JSVal.undef
        · have hfil : List.filter (fun q => q.2 ≠ JSVal.undef) (p :: o)
              = List.filter (fun q => q.2 ≠ JSVal.undef) o := by
            simp [List.filter_cons, hu]
          rw [mergeEnvironments_cons_nonwin, if_pos hu, hfil]
          exact ih parent
        · have hfil : List.filter (fun q => q.2 ≠ JSVal.undef) (p :: o)
              = p :: List.filter (fun q => q.2 ≠ JSVal.undef) o := by
            simp [List.filter_cons, hu]
          rw [hfil, mergeEnvironments_cons_nonwin, mergeEnvironments_cons_nonwin, if_neg hu]
          exact ih _
  · intro isWin parent k
    cases isWin with
    | true => rw [mergeEnvironments_cons_win, if_pos rfl, mergeEnvironments_nil]
    | false => rw [mergeEnvironments_cons_nonwin, if_pos rfl, mergeEnvironments_nil]
  · intro isWin parent o k
    cases isWin with
    | true =>
      induction o generalizing parent with
      | nil => intro _; rw [mergeEnvironments_nil]
      | cons p o ih =>
        intro hno
        have hk : jsToLowerCase p.1 ≠ jsToLowerCase k := hno p (by simp)
        have hrest : ∀ q ∈ o, jsToLowerCase q.1 ≠ jsToLowerCase k :=
          fun q hq => hno q (List.mem_cons_of_mem p hq)
        rw [mergeEnvironments_cons_win, ih _ hrest]
        by_cases hu : p.2 = JSVal.undef
        · rw [if_pos hu]
        · rw [if_neg hu]
          apply getKey_mergeEnvironmentValue_ne
          intro hkk
          exact hk (((congrArg jsToLowerCase hkk).trans (findCaseKey_lower parent p.1)).symm)
    | false =>
      induction o generalizing parent with
      | nil => intro _; rw [mergeEnvironments_nil]
      | cons p o ih =>
        intro hno
        have hk : jsToLowerCase p.1 ≠ jsToLowerCase k := hno p (by simp)
        have hrest : ∀ q ∈ o, jsToLowerCase q.1 ≠ jsToLowerCase k :=
          fun q hq => hno q (List.mem_cons_of_mem p hq)
        rw [mergeEnvironments_cons_nonwin, ih _ hrest]
        by_cases hu : p.2 = JSVal.undef
        · rw [if_pos hu]
        · rw [if_neg hu]
          apply getKey_mergeEnvironmentValue_ne
          intro hkk
          exact hk ((congrArg jsToLowerCase hkk).symm)

end TerminalEnv

namespace TerminalEnv

theorem mergeNonNull_foldl_eq_filter (o : Env) : ∀ acc : Env,
    (o.map Prod.fst).Nodup →
    (∀ p ∈ o, ∀ q ∈ acc, q.1 ≠ p.1) →
    o.foldl (fun e p => if truthy p.2 then setKey e p.1 p.2 else e) acc
      = acc ++ o.filter (fun p => truthy p.2) := by
  induction o with
  | nil => intro acc _ _; simp
  | cons p o ih =>
    intro acc hnd hdisj
    rw [List.foldl_cons]
    have hnd2 : (o.map Prod.fst).Nodup := by
      rw [List.map_cons, List.nodup_cons] at hnd
      exact hnd.2
    have hp1 : p.1 ∉ o.map Prod.fst := by
      rw [List.map_cons, List.nodup_cons] at hnd
      exact hnd.1
    by_cases ht : truthy p.2 = true
    · rw [if_pos ht]
      have hset : setKey acc p.1 p.2 = acc ++ [(p.1, p.2)] := by
        apply setKey_of_not_found
        rw [List.find?_eq_none]
        intro q hq
        simpa using hdisj p (by simp) q hq
      have hd2 : ∀ p2 ∈ o, ∀ q ∈ acc ++ [(p.1, p.2)], q.1 ≠ p2.1 := by
        intro p2 hp2 q hq
        rcases List.mem_append.mp hq with hq1 | hq2
        · exact hdisj p2 (List.mem_cons_of_mem p hp2) q hq1
        · have hqe : q = (p.1, p.2) := by simpa using hq2
          rw [hqe]
          intro hq1p2
          apply hp1
          rw [hq1p2]
          exact List.mem_map_of_mem Prod.fst hp2
      rw [hset, ih (acc ++ [(p.1, p.2)]) hnd2 hd2, List.filter_cons, if_pos ht]
      simp
    · rw [if_neg ht, List.filter_cons, if_neg ht]
      exact ih acc hnd2 (fun p2 hp2 q hq => hdisj p2 (List.mem_cons_of_mem p hp2) q hq)

/-- Claim C3: with strictEnv set, createTerminalEnvironment returns exactly
the truthy string entries of the launch config env overlay, for every base
environment, configured overlay, resolver, version and locale setting, with
no base copying and no key stamping. -/
theorem createTerminalEnvironment_strictEnv (isWin : Bool)
    (platformLocale : Option String) (cwd0 : Option CwdSpec) (ign : Bool) (e : Env)
    (envFromConfig : Option Env) (variableResolver : Option Resolver)
    (version : Option String) (dl : DetectLocale) (baseEnv : Env)
    (hnd : (e.map Prod.fst).Nodup) :
    (createTerminalEnvironment isWin platformLocale
      { cwd := cwd0, ignoreConfigurationCwd := ign, env := some e, strictEnv := true }
      envFromConfig variableResolver version dl baseEnv).env
      = e.filter (fun p => truthy p.2) := by
  unfold createTerminalEnvironment
  rw [if_pos rfl]
  show mergeNonNullKeys [] (some e) = _
  simp only [mergeNonNullKeys]
  rw [mergeNonNull_foldl_eq_filter e [] hnd (by intro p _ q hq; simp at hq)]
  simp

/-- Witness for the strict mode claim at the example of the spec. -/
theorem createTerminalEnvironment_strictEnv_witness :
    (([("A", JSVal.str "1"), ("B", JSVal.null)] : Env).map Prod.fst).Nodup ∧
    (createTerminalEnvironment false none
      { cwd := none, ignoreConfigurationCwd := false,
        env := some [("A", JSVal.str "1"), ("B", JSVal.null)], strictEnv := true }
      (some [("C", JSVal.str "c")]) (some (fun s => some (s ++ "!"))) (some "1.0")
      DetectLocale.on [("BASE", JSVal.str "b")]).env
      = [("A", JSVal.str "1")] := by
  constructor
  · decide
  · rw [createTerminalEnvironment_strictEnv false none none false
      [("A", JSVal.str "1"), ("B", JSVal.null)] (some [("C", JSVal.str "c")])
      (some (fun s => some (s ++ "!"))) (some "1.0") DetectLocale.on
      [("BASE", JSVal.str "b")] (by decide)]
    decide

/-- Counterexample to claim C5 as stated: with a resolver that rewrites every
value, createTerminalEnvironment leaves the caller-supplied configured
overlay untouched, although in-place resolution would have changed its value
to the resolved one. -/
theorem createTerminalEnvironment_configOverlay_not_mutated :
    (createTerminalEnvironment false none
      { cwd := none, ignoreConfigurationCwd := false,
        env := some [("L", JSVal.str "w")], strictEnv := false }
      (some [("K", JSVal.str "v")]) (some (fun _ => some "R")) none
      DetectLocale.off []).envFromConfigAfter = some [("K", JSVal.str "v")] ∧
    resolveConfigurationVariables (fun _ => some "R") [("K", JSVal.str "v")]
      = [("K", JSVal.str "R")] ∧
    some [("K", JSVal.str "v")] ≠ some [("K", JSVal.str "R")] := by
  refine ⟨by decide, by decide, by decide⟩

/-- Claim C5 amended: in non-strict mode with a resolver present, the launch
config env overlay is resolved value by value, its post-call state being the
resolved mapping, while the configured overlay is resolved on a shallow copy
and the caller-supplied configured overlay is left unchanged; per entry,
non-string values and values whose resolution throws pass through. -/
theorem createTerminalEnvironment_resolution_effects (isWin : Bool)
    (platformLocale : Option String) (cwd0 : Option CwdSpec) (ign : Bool)
    (slcEnv : Option Env) (envFromConfig : Option Env) (r : Resolver)
    (version : Option String) (dl : DetectLocale) (baseEnv : Env) :
    (createTerminalEnvironment isWin platformLocale
      { cwd := cwd0, ignoreConfigurationCwd := ign, env := slcEnv, strictEnv := false }
      envFromConfig (some r) version dl baseEnv).shellEnvAfter
        = slcEnv.map (fun e => resolveConfigurationVariables r e) ∧
    (createTerminalEnvironment isWin platformLocale
      { cwd := cwd0, ignoreConfigurationCwd := ign, env := slcEnv, strictEnv := false }
      envFromConfig (some r) version dl baseEnv).envFromConfigAfter = envFromConfig ∧
    (∀ o : Env, resolveConfigurationVariables r o
        = o.map (fun p => (p.1, match p.2 with
            | JSVal.str s => JSVal.str ((r s).getD s)
            | v => v))) := by
  refine ⟨?_, ?_, ?_⟩
  · unfold createTerminalEnvironment
    rw [if_neg (by simp)]
  · unfold createTerminalEnvironment
    rw [if_neg (by simp)]
  · intro o
    unfold resolveConfigurationVariables
    apply List.map_congr_left
    intro p _
    rcases p with ⟨k, v⟩
    cases v with
    | str s => cases hr : r s <;> simp [hr, Option.getD]
    | null => rfl
    | undef => rfl

/-- Counterexample to claim C4 as stated: a three-segment locale keeps its
third segment in the result instead of dropping everything beyond the second
segment. -/
theorem getLangEnvVariable_keeps_extra_segments :
    getLangEnvVariable (some "zh-hans-tw") = "zh_HANS_tw.UTF-8" ∧
    getLangEnvVariable (some "zh-hans-tw") ≠ "zh_HANS.UTF-8" := by
  refine ⟨by decide, by decide⟩

/-- Claim C4 amended: for every locale tag splitting into two or more
segments, getLangEnvVariable uppercases the second segment and joins all
segments, including any beyond the second, with underscores, appending the
UTF-8 suffix; extra segments are retained, not dropped. -/
theorem getLangEnvVariable_multiSegment (l p0 p1 : String) (rest : List String)
    (hne : l ≠ "") (hsplit : jsSplit l '-' = p0 :: p1 :: rest) :
    getLangEnvVariable (some l)
      = joinUnderscore (p0 :: jsToUpperCase p1 :: rest) ++ ".UTF-8" := by
  unfold getLangEnvVariable
  dsimp only
  rw [if_neg hne, hsplit]

/-- Witness for the amended locale claim at a concrete three-segment tag. -/
theorem getLangEnvVariable_multiSegment_witness :
    ("pt-br-x" ≠ "" ∧ jsSplit "pt-br-x" '-' = ["pt", "br", "x"]) ∧
    getLangEnvVariable (some "pt-br-x") = "pt_BR_x.UTF-8" := by
  refine ⟨⟨by decide, by decide⟩, ?_⟩
  rw [getLangEnvVariable_multiSegment "pt-br-x" "pt" "br" ["x"] (by decide) (by decide)]
  decide

end TerminalEnv

namespace TerminalEnv

theorem hasEucPlus_iff (l : List Char) :
    hasEucPlus l = true ↔ ∃ t, t ≠ [] ∧ (eucPat ++ t) <:+ l := by
  induction l with
  | nil => simp [hasEucPlus, List.suffix_nil, eucPat]
  | cons c rest ih =>
    simp only [hasEucPlus, Bool.or_eq_true, Bool.and_eq_true, ih]
    constructor
    · rintro (⟨hpre, hlen⟩ | ⟨t, ht, hsuf⟩)
      · rw [List.isPrefixOf_iff_prefix] at hpre
        obtain ⟨t, ht⟩ := hpre
        refine ⟨t, ?_, [], by rw [List.nil_append, ht]⟩
        intro h0
        subst h0
        rw [List.append_nil] at ht
        have hlen2 := congrArg List.length ht
        simp [eucPat] at hlen2
        rw [decide_eq_true_eq] at hlen
        omega
      · exact ⟨t, ht, hsuf.trans (List.suffix_cons c rest)⟩
    · rintro ⟨t, ht, hsuf⟩
      rcases List.suffix_cons_iff.mp hsuf with heq | hsuf2
      · left
        constructor
        · rw [List.isPrefixOf_iff_prefix]
          exact ⟨t, heq⟩
        · rw [decide_eq_true_eq]
          have hlen := congrArg List.length heq
          simp [eucPat] at hlen
          have htl : 1 ≤ t.length := by
            cases t with
            | nil => exact absurd rfl ht
            | cons a t2 => simp
          omega
      · exact Or.inr ⟨t, ht, hsuf2⟩

/-- Claim C8: shouldSetLangEnvVariable is constantly true for the on setting
and constantly false for off; for auto it is true iff there is no truthy
LANG value, or the existing value ends with none of the recognized suffixes:
the UTF-8 suffix, the utf8 suffix, or an euc occurrence followed by at least
one character, all case-sensitively. -/
theorem shouldSetLangEnvVariable_spec :
    (∀ env : Env, shouldSetLangEnvVariable env DetectLocale.on = true) ∧
    (∀ env : Env, shouldSetLangEnvVariable env DetectLocale.off = false) ∧
    (∀ (env : Env) (lang : String), getKey env "LANG" = JSVal.str lang → lang ≠ "" →
      (shouldSetLangEnvVariable env DetectLocale.auto = true ↔
        (¬ ".UTF-8".data <:+ lang.data ∧ ¬ ".utf8".data <:+ lang.data ∧
          ¬ ∃ t, t ≠ [] ∧ (eucPat ++ t) <:+ lang.data))) ∧
    (∀ env : Env, (∀ s, getKey env "LANG" = JSVal.str s → s = "") →
      shouldSetLangEnvVariable env DetectLocale.auto = true) := by
  refine ⟨fun env => rfl, fun env => rfl, ?_, ?_⟩
  · intro env lang hl hne
    unfold shouldSetLangEnvVariable
    rw [if_neg (by decide), if_pos rfl, hl]
    dsimp only
    rw [if_neg hne]
    have e1 : (searchEndsWith lang ".UTF-8" = true) ↔ ".UTF-8".data <:+ lang.data := by
      simp [searchEndsWith]
    have e2 : (searchEndsWith lang ".utf8" = true) ↔ ".utf8".data <:+ lang.data := by
      simp [searchEndsWith]
    have e3 := hasEucPlus_iff lang.data
    simp only [Bool.and_eq_true, Bool.not_eq_true']
    rw [← e1, ← e2, ← e3]
    simp only [Bool.not_eq_true, and_assoc]
  · intro env h
    unfold shouldSetLangEnvVariable
    rw [if_neg (by decide), if_pos rfl]
    cases hg : getKey env "LANG" with
    | str s =>
      have hs := h s hg
      simp [hs]
    | null => rfl
    | undef => rfl

end TerminalEnv

namespace TerminalEnv

theorem searchPaths_eq_find (P : PathOps) (isWin : Bool) (cwd command : String)
    (fsExists : String → Bool) : ∀ ps : List String,
    searchPaths P isWin cwd command fsExists ps
      = ((searchCandidates P isWin cwd command ps) ++ [P.join2 cwd command]).find? fsExists := by
  intro ps
  induction ps with
  | nil =>
    simp only [searchPaths, searchCandidates, List.nil_append]
    cases h : fsExists (P.join2 cwd command) <;> simp [List.find?, h]
  | cons e rest ih =>
    simp only [searchPaths, searchCandidates]
    generalize (if P.isAbsolute e then P.join2 e command else P.join3 cwd e command) = fp
    cases hfp : fsExists fp with
    | true => simp [List.find?, hfp]
    | false =>
      cases isWin with
      | false =>
        simp only [if_neg (by simp : ¬False), Bool.false_eq_true, if_false, ih]
        simp [List.find?, hfp]
      | true =>
        simp only [if_pos rfl, if_true]
        cases hcom : fsExists (fp ++ ".com") with
        | true => simp [List.find?, hfp, hcom]
        | false =>
          cases hexe : fsExists (fp ++ ".exe") with
          | true => simp [List.find?, hfp, hcom, hexe]
          | false =>
            rw [ih]
            simp [List.find?, hfp, hcom, hexe]

/-- Claim C1: findExecutable returns exactly the first candidate of the
documented probe order for which the injected existence predicate holds, and
none when no probe succeeds: an absolute command is its own only candidate,
a command with a directory component is probed once at cwd, otherwise the
search entries are probed in order, on Windows each followed by its com and
exe suffixed variants, with a final fallback probe at cwd; consequently
every returned path was confirmed by the predicate. -/
theorem findExecutable_probe_order (P : PathOps) (isWin : Bool)
    (processCwd command : String) (cwd : Option String)
    (paths : Option (List String)) (env : Env) (fsExists : String → Bool) :
    findExecutable P isWin processCwd command cwd paths env fsExists
      = (probeOrder P isWin processCwd command cwd paths env).find? fsExists ∧
    (∀ p, findExecutable P isWin processCwd command cwd paths env fsExists = some p →
      fsExists p = true) := by
  have hmain : findExecutable P isWin processCwd command cwd paths env fsExists
      = (probeOrder P isWin processCwd command cwd paths env).find? fsExists := by
    unfold findExecutable probeOrder
    by_cases habs : P.isAbsolute command = true
    · rw [if_pos habs, if_pos habs]
      cases h : fsExists command <;> simp [List.find?, h]
    · rw [if_neg habs, if_neg habs]
      dsimp only
      by_cases hdir : P.dirname command ≠ "."
      · rw [if_pos hdir, if_pos hdir]
        cases h : fsExists (P.join2 (cwd.getD processCwd) command) <;> simp [List.find?, h]
      · rw [if_neg hdir, if_neg hdir]
        cases hp : derivePaths P paths env with
        | none =>
          cases h : fsExists (P.join2 (cwd.getD processCwd) command) <;> simp [List.find?, h]
        | some ps => exact searchPaths_eq_find P isWin (cwd.getD processCwd) command fsExists ps
  refine ⟨hmain, ?_⟩
  intro p hp
  rw [hmain] at hp
  exact List.find?_some hp

end TerminalEnv

namespace TerminalEnv

/-- Claim C6: with no explicit launch config cwd, getCwd follows the
documented precedence: the configured cwd is used when the launch config
does not opt out and resolution yields a usable value, absolute directly,
relative joined to a known workspace root; otherwise the workspace root,
else the user home, else the empty string; and every result is sanitized,
where sanitization on Windows uppercases the first character of a string
whose second character is a colon and otherwise returns the string
unchanged. -/
theorem getCwd_no_explicit_cwd (P : PathOps) (isWin : Bool) (ign : Bool)
    (envv : Option Env) (se : Bool) (userHome : Option String)
    (variableResolver : Option Resolver) (root : Option String)
    (customCwd : Option String)
    (hjoin : ∀ a b, P.join2 a b ≠ "") :
    (getCwd P isWin { cwd := none, ignoreConfigurationCwd := ign, env := envv, strictEnv := se } userHome variableResolver root customCwd
      = getCwdNoExplicitSpec P isWin ign userHome variableResolver root customCwd) ∧
    (∀ s, _sanitizeCwd false s = s) ∧
    (∀ s, _sanitizeCwd true s =
      if s.data[1]? = some ':' then
        (match s.data with
         | c :: rest => String.mk (c.toUpper :: rest)
         | [] => s)
      else s) := by
  refine ⟨?_, ?_, ?_⟩
  · cases customCwd with
    | none =>
      cases ign <;> cases root <;> cases userHome <;>
        simp [getCwd, getCwdNoExplicitSpec, getCwdConfiguredSpec, getCwdFallbackSpec,
          _resolveCwd, Option.getD]
    | some c0 =>
      cases ign with
      | true =>
        cases root <;> cases userHome <;>
          simp [getCwd, getCwdNoExplicitSpec, getCwdConfiguredSpec, getCwdFallbackSpec,
            _resolveCwd, Option.getD]
      | false =>
        by_cases hc0 : c0 = ""
        · cases root <;> cases userHome <;>
            simp [getCwd, getCwdNoExplicitSpec, getCwdConfiguredSpec, getCwdFallbackSpec,
              _resolveCwd, Option.getD, hc0]
        · cases hr1 : (match variableResolver with
              | some r => r c0
              | none => some c0) with
          | none =>
            cases root <;> cases userHome <;>
              simp [getCwd, getCwdNoExplicitSpec, getCwdConfiguredSpec, getCwdFallbackSpec,
                _resolveCwd, Option.getD, hc0, hr1]
          | some c2 =>
            by_cases hc2 : c2 = ""
            · cases root <;> cases userHome <;>
                simp [getCwd, getCwdNoExplicitSpec, getCwdConfiguredSpec, getCwdFallbackSpec,
                  _resolveCwd, Option.getD, hc0, hr1, hc2]
            · by_cases habs : P.isAbsolute c2 = true
              · cases root <;> cases userHome <;>
                  simp [getCwd, getCwdNoExplicitSpec, getCwdConfiguredSpec, getCwdFallbackSpec,
                    _resolveCwd, Option.getD, hc0, hr1, hc2, habs]
              · cases root with
                | none =>
                  cases userHome <;>
                    simp [getCwd, getCwdNoExplicitSpec, getCwdConfiguredSpec, getCwdFallbackSpec,
                      _resolveCwd, Option.getD, hc0, hr1, hc2, habs]
                | some rt =>
                  cases userHome <;>
                    simp [getCwd, getCwdNoExplicitSpec, getCwdConfiguredSpec, getCwdFallbackSpec,
                      _resolveCwd, Option.getD, hc0, hr1, hc2, habs, hjoin]
  · intro s
    simp [_sanitizeCwd]
  · intro s
    unfold _sanitizeCwd
    by_cases h : s.data[1]? = some ':'
    · have hs : s ≠ "" := by
        intro he
        rw [he] at h
        simp at h
      rw [if_pos ⟨rfl, hs, h⟩, if_pos h]
    · rw [if_neg (by simp [h]), if_neg h]

/-- Witness for the no-explicit-cwd claim, at a path algebra whose joins are
never empty. -/
theorem getCwd_no_explicit_cwd_witness :
    (∀ a b, toyPathOps.join2 a b ≠ "") ∧
    getCwd toyPathOps false { cwd := none, ignoreConfigurationCwd := false, env := none, strictEnv := false } (some "/home/u") none (some "/ws") (some "rel")
      = getCwdNoExplicitSpec toyPathOps false false (some "/home/u") none (some "/ws")
          (some "rel") := by
  have hj : ∀ a b, toyPathOps.join2 a b ≠ "" := by
    intro a b h
    have h2 : a ++ "/" ++ b = "" := h
    have hlen := congrArg String.length h2
    rw [String.length_append, String.length_append] at hlen
    rw [show ("/" : String).length = 1 from rfl] at hlen
    rw [show ("" : String).length = 0 from rfl] at hlen
    omega
  exact ⟨hj, (getCwd_no_explicit_cwd toyPathOps false false none false (some "/home/u")
    none (some "/ws") (some "rel") hj).1⟩

/-- Claim C7: a resolver exception inside getCwd never escapes to the
caller: with an explicit launch config cwd, string or uri form, the
unresolved original value is sanitized and returned; with only a configured
cwd, the failure makes getCwd fall back to the workspace root, user home or
empty string. -/
theorem getCwd_resolver_failure :
    (∀ (P : PathOps) (isWin ign se : Bool) (envv : Option Env)
       (userHome root customCwd : Option String) (r : Resolver) (s : String),
       r s = none → s ≠ "" →
       getCwd P isWin { cwd := some (CwdSpec.str s), ignoreConfigurationCwd := ign, env := envv, strictEnv := se } userHome (some r) root customCwd
         = _sanitizeCwd isWin s) ∧
    (∀ (P : PathOps) (isWin ign se : Bool) (envv : Option Env)
       (userHome root customCwd : Option String) (r : Resolver) (f : String),
       r f = none →
       getCwd P isWin { cwd := some (CwdSpec.uri f), ignoreConfigurationCwd := ign, env := envv, strictEnv := se } userHome (some r) root customCwd
         = _sanitizeCwd isWin f) ∧
    (∀ (P : PathOps) (isWin se : Bool) (envv : Option Env)
       (userHome root : Option String) (r : Resolver) (c : String),
       r c = none → c ≠ "" →
       getCwd P isWin { cwd := none, ignoreConfigurationCwd := false, env := envv, strictEnv := se } userHome (some r) root (some c)
         = _sanitizeCwd isWin (getCwdFallbackSpec userHome root)) := by
  refine ⟨?_, ?_, ?_⟩
  · intro P isWin ign se envv userHome root customCwd r s hr hs
    simp [getCwd, _resolveCwd, hr, hs]
  · intro P isWin ign se envv userHome root customCwd r f hr
    simp [getCwd, _resolveCwd, hr]
  · intro P isWin se envv userHome root r c hr hc
    cases root <;> cases userHome <;>
      simp [getCwd, getCwdFallbackSpec, _resolveCwd, Option.getD, hr, hc]

/-- Witness for the resolver failure claim at a throwing resolver and the
explicit cwd of the spec example. -/
theorem getCwd_resolver_failure_witness :
    ((fun _ : String => (none : Option String)) "/tmp/x" = none ∧ "/tmp/x" ≠ "") ∧
    getCwd toyPathOps false { cwd := some (CwdSpec.str "/tmp/x"), ignoreConfigurationCwd := false, env := none, strictEnv := false } none (some (fun _ => none)) none none
      = _sanitizeCwd false "/tmp/x" := by
  refine ⟨⟨rfl, by decide⟩, ?_⟩
  exact (getCwd_resolver_failure).1 toyPathOps false false false none none none none
    (fun _ => none) "/tmp/x" rfl (by decide)

end TerminalEnv

namespace TerminalEnv

/-- Witness for the probe order claim: a search where only the second entry
holds the command, and confirmation of the returned path. -/
theorem findExecutable_probe_order_witness :
    findExecutable toyPathOps false "/cwd" "cmd" none (some ["/a", "/b"]) []
        (fun s => s = "/b/cmd") = some "/b/cmd" ∧
    (fun s : String => (decide (s = "/b/cmd") : Bool)) "/b/cmd" = true := by
  constructor
  · decide
  · exact (findExecutable_probe_order toyPathOps false "/cwd" "cmd" none
      (some ["/a", "/b"]) [] (fun s => s = "/b/cmd")).2 "/b/cmd" (by decide)

/-- Witness for the locale detection claim: an environment carrying a UTF-8
suffixed LANG makes the auto mode skip, and an empty environment does not. -/
theorem shouldSetLangEnvVariable_spec_witness :
    (getKey [("LANG", JSVal.str "en_US.UTF-8")] "LANG" = JSVal.str "en_US.UTF-8" ∧
      "en_US.UTF-8" ≠ "") ∧
    (shouldSetLangEnvVariable [("LANG", JSVal.str "en_US.UTF-8")] DetectLocale.auto = true ↔
      (¬ ".UTF-8".data <:+ "en_US.UTF-8".data ∧ ¬ ".utf8".data <:+ "en_US.UTF-8".data ∧
        ¬ ∃ t, t ≠ [] ∧ (eucPat ++ t) <:+ "en_US.UTF-8".data)) ∧
    shouldSetLangEnvVariable [] DetectLocale.auto = true := by
  refine ⟨⟨by decide, by decide⟩, ?_, ?_⟩
  · exact (shouldSetLangEnvVariable_spec).2.2.1 [("LANG", JSVal.str "en_US.UTF-8")]
      "en_US.UTF-8" (by decide) (by decide)
  · refine (shouldSetLangEnvVariable_spec).2.2.2 [] ?_
    intro s h
    simp [getKey, List.find?] at h

/-- Witness for the undefined skip and frame claim: an unrelated overlay key
leaves the Path entry unchanged. -/
theorem mergeEnvironments_undef_and_frame_witness :
    (∀ p ∈ ([("x", JSVal.str "1")] : Env), jsToLowerCase p.1 ≠ jsToLowerCase "Path") ∧
    getKey (mergeEnvironments true [("Path", JSVal.str "old")]
        (some [("x", JSVal.str "1")])) "Path"
      = getKey [("Path", JSVal.str "old")] "Path" := by
  constructor
  · decide
  · exact (mergeEnvironments_undef_and_frame).2.2 true [("Path", JSVal.str "old")]
      [("x", JSVal.str "1")] "Path" (by decide)

end TerminalEnv
